import Mathlib

/-!
Verification development for the graph-transformation core of EMLL
(`src/libraries/model/src/ModelTransformer.cpp`).

The transformer logic (`CopyModel`, `RefineModel`, `TransformPortElements`,
`GetCorrespondingOutputs`, `FindUncompilableNodes`, `TransformContext`) is
translated from that source file.  The collaborating classes that are not in
the source tree (`Model`, `Node` with its `InvokeCopy`/`InvokeRefine`
operations, `PortElementsBase`, the iteration cap declared in the header) are
modelled from the specification; each such definition carries a doc comment
starting with `Modelled from the spec:`.

C++ member fields `_model`, `_elementToElementMap`, `_context`,
`_isModelCompilable` are rendered as the record fields `model`,
`elementToElementMap`, `context`, `isModelCompilable` (Lean naming does not
keep the underscore prefix).  Exceptions are rendered as an error component of
the result; the member state at throw time is returned alongside the error,
since a caller can observe those fields after catching.
-/

/-- Modelled from the spec: an Output Handle identifier, `(owning node id,
output port index within that node)`.  The C++ `PortElementBase` stores a
pointer to the `OutputPortBase`; the spec's design notes prescribe small
integer indices, which we use here. -/
structure OutputPortId where
  nodeId : Nat
  portIndex : Nat
deriving DecidableEq

/-- An Element Reference: one slot of one output handle.  Translated from the
C++ `PortElementBase` `(const OutputPortBase* _referencedPort, size_t _index)`;
the possibly-null pointer is an `Option`. -/
structure PortElementBase where
  referencedPort : Option OutputPortId
  index : Nat
deriving DecidableEq

/-- A default-constructed `PortElementBase`: null port pointer, index 0. -/
def PortElementBase.nullElement : PortElementBase := ⟨none, 0⟩

/-- Modelled from the spec: one contiguous range entry of an Element Set
(`PortRange`): an output handle, a start index and a count.  The port field is
an `Option` because the C++ range holds a pointer that is null for a
default-constructed reference. -/
structure PortRange where
  port : Option OutputPortId
  startIndex : Nat
  numValues : Nat
deriving DecidableEq

/-- Modelled from the spec: an Element Set (`PortElementsBase`), an ordered
sequence of range entries. -/
structure PortElementsBase where
  ranges : List PortRange
deriving DecidableEq

/-- The logical sequence of Element References denoted by one range entry. -/
def PortRange.elementList (r : PortRange) : List PortElementBase :=
  (List.range r.numValues).map (fun j => ⟨r.port, r.startIndex + j⟩)

/-- The logical sequence of Element References of an Element Set; the C++
iterates it as `GetElement(0) .. GetElement(Size()-1)`. -/
def PortElementsBase.elementList (pe : PortElementsBase) : List PortElementBase :=
  pe.ranges.flatMap PortRange.elementList

/-- The `PortElementsBase(port)` constructor: one range covering the whole
output handle. -/
def PortElementsBase.fromPort (pid : OutputPortId) (size : Nat) : PortElementsBase :=
  ⟨[⟨some pid, 0, size⟩]⟩

/-- Modelled from the spec: `Consolidate` merges adjacent range entries that
reference the same output handle at contiguous indices; order-preserving
(rendered as a structural right-to-left merge of adjacent contiguous
entries). -/
def consolidateRanges : List PortRange → List PortRange
  | [] => []
  | r :: rest =>
    match consolidateRanges rest with
    | [] => [r]
    | r2 :: rest2 =>
      if r.port = r2.port ∧ r2.startIndex = r.startIndex + r.numValues then
        ⟨r.port, r.startIndex, r.numValues + r2.numValues⟩ :: rest2
      else
        r :: r2 :: rest2

/-- `PortElementsBase::Consolidate`, acting on a whole Element Set. -/
def PortElementsBase.consolidate (pe : PortElementsBase) : PortElementsBase :=
  ⟨consolidateRanges pe.ranges⟩

/-- Modelled from the spec: an Output Handle owned by one node — a type tag
and a fixed element count. -/
structure OutputPort where
  typeName : String
  size : Nat
deriving DecidableEq

/-- Modelled from the spec: the refine behaviour of a node kind.  Per §4.2 a
node's Refine-into either behaves exactly like Copy-into and reports "no
change" (`passive`), or emits a replacement and reports "changed"
(`stepKind`: a node that rewrites itself into a node of the successor kind,
with identical shape). -/
inductive NodeBehavior where
  | passive
  | stepKind
deriving DecidableEq

/-- Modelled from the spec: a computation Node — an identity, a kind tag, its
wired input Element Sets, its Output Handles, and its refine behaviour. -/
structure Node where
  id : Nat
  kind : Nat
  inputs : List PortElementsBase
  outputs : List OutputPort
  behavior : NodeBehavior
deriving DecidableEq

/-- `Node::GetRuntimeTypeName`, used only in the non-convergence message. -/
def Node.GetRuntimeTypeName (n : Node) : String :=
  "Node" ++ toString n.kind

/-- Does the node with identity `id` and output handles `outputs` own the
Element Reference `e`? -/
def ownsElement (id : Nat) (outputs : List OutputPort) (e : PortElementBase) : Bool :=
  match e.referencedPort with
  | none => false
  | some pid =>
    pid.nodeId == id && pid.portIndex < outputs.length &&
      e.index < ((outputs.get? pid.portIndex).getD ⟨"", 0⟩).size

/-- Modelled from the spec: a Model — a DAG of nodes kept in dependency
(topological) order; visiting is in list order (ties broken by insertion
order, §4.3). -/
structure Model where
  nodes : List Node
deriving DecidableEq

def Model.empty : Model := ⟨[]⟩

/-- Does some node of the model own the Element Reference `e`? -/
def Model.hasElement (mo : Model) (e : PortElementBase) : Bool :=
  mo.nodes.any (fun n => ownsElement n.id n.outputs e)

/-- Are all input references of `n` resolvable against the outputs of the
already-processed prefix `processed`? -/
def inputsResolvable (processed : List Node) (n : Node) : Bool :=
  n.inputs.all (fun pe =>
    pe.elementList.all (fun e => processed.any (fun q => ownsElement q.id q.outputs e)))

/-- The no-forward-reference invariant of §3, relative to an
already-processed prefix. -/
def wfFrom : List Node → List Node → Bool
  | _, [] => true
  | processed, n :: rest => inputsResolvable processed n && wfFrom (processed ++ [n]) rest

/-- A well-formed model: every input reference resolves to an output of an
earlier node. -/
def Model.wf (m : Model) : Bool := wfFrom [] m.nodes

/-- No two entries of the list are equal (used for node-id uniqueness). -/
def nodupBool : List Nat → Bool
  | [] => true
  | x :: xs => !(xs.contains x) && nodupBool xs

/-- Distinct node identities within a model. -/
def Model.idsNodup (m : Model) : Bool := nodupBool (m.nodes.map (·.id))

/-- The Transform Context, translated from lines 24-37 of the source: it
wraps one `isNodeCompilable` predicate. -/
structure TransformContext where
  isNodeCompilableFunction : Node → Bool

/-- `TransformContext::TransformContext()`: the default predicate returns
`false` for every node (line 26). -/
def TransformContext.default : TransformContext :=
  ⟨fun _ => false⟩

/-- `TransformContext::IsNodeCompilable` (lines 34-37). -/
def TransformContext.IsNodeCompilable (ctx : TransformContext) (n : Node) : Bool :=
  ctx.isNodeCompilableFunction n

/-- The two fatal error kinds of §7: the invalid-reference error thrown by
`TransformPortElements` (line 125) and the non-convergence error thrown by
`RefineModel` (line 105), carrying the name of the first uncompilable node. -/
inductive TransformError where
  | invalidArgument (message : String)
  | nonConvergence (firstUncompilableNodeName : String)
deriving DecidableEq

/-- The Element Map `_elementToElementMap`, an association list with unique
keys standing for the C++ `std::unordered_map<PortElementBase, PortElementBase>`. -/
abbrev ElementMap := List (PortElementBase × PortElementBase)

/-- `unordered_map::find`: the value stored at `key`, if any. -/
def mapFind : ElementMap → PortElementBase → Option PortElementBase
  | [], _ => none
  | (k, v) :: rest, key => if key = k then some v else mapFind rest key

/-- `unordered_map::operator[] =`: replace the entry for `k` or append one. -/
def mapInsert : ElementMap → PortElementBase → PortElementBase → ElementMap
  | [], k, v => [(k, v)]
  | (k', v') :: rest, k, v =>
    if k = k' then (k, v) :: rest else (k', v') :: mapInsert rest k v

/-- The map-composition loop of `RefineModel` (lines 80-88): for every entry
`(old, mid)` of the previous generation's map, install
`(old, _elementToElementMap[mid])` into a fresh map.  `operator[]` on a
missing key default-constructs the value, so a missing `mid` yields the null
element.  (The `operator[]` lookup also inserts `(mid, null)` into the pass
map, but that map is overwritten wholesale on line 87 and a repeated missing
`mid` reads back the same null value, so the side effect is unobservable.) -/
def composeMaps (currentMap passMap : ElementMap) : ElementMap :=
  currentMap.map (fun entry => (entry.1, (mapFind passMap entry.2).getD PortElementBase.nullElement))

/-- Lines 80-88 as one step: the composition runs only when the previous
generation's map is non-empty, otherwise the pass map is adopted as is. -/
def composeStep (currentMap passMap : ElementMap) : ElementMap :=
  if currentMap.length > 0 then composeMaps currentMap passMap else passMap

/-- The element-by-element loop of `TransformPortElements` (lines 119-130):
look each reference up in the Element Map, throwing the invalid-reference
error on a miss, and append the image as a one-element range. -/
def transformElementList (m : ElementMap) : List PortElementBase → Except TransformError (List PortRange)
  | [] => .ok []
  | e :: rest =>
    match mapFind m e with
    | none => .error (.invalidArgument "Could not find element in new model.")
    | some newElement =>
      (transformElementList m rest).map (fun rs => ⟨newElement.referencedPort, newElement.index, 1⟩ :: rs)

/-- `ModelTransformer::TransformPortElements` (lines 114-133): map every
element through the Element Map (failing on the first missing image), then
consolidate the result. -/
def TransformPortElements (m : ElementMap) (elements : PortElementsBase) : Except TransformError PortElementsBase :=
  (transformElementList m elements.elementList).map (fun rs => PortElementsBase.consolidate ⟨rs⟩)

/-- Remap each of a node's input Element Sets through the Element Map. -/
def transformInputs (m : ElementMap) : List PortElementsBase → Except TransformError (List PortElementsBase)
  | [] => .ok []
  | pe :: rest =>
    match TransformPortElements m pe with
    | .error e => .error e
    | .ok r =>
      match transformInputs m rest with
      | .error e => .error e
      | .ok rs => .ok (r :: rs)

/-- Insert the 1:1 index-preserving registrations for elements `0..s-1` of
port `p`: `(oldId, p, j) ↦ (newId, p, j)`. -/
def insertRangeRegs (m : ElementMap) (oldId newId p : Nat) : Nat → ElementMap
  | 0 => m
  | j + 1 =>
    mapInsert (insertRangeRegs m oldId newId p j) ⟨some ⟨oldId, p⟩, j⟩ ⟨some ⟨newId, p⟩, j⟩

/-- Insert the registrations for a suffix of the output handles, the first of
them carrying port index `p`. -/
def insertRegsAux (m : ElementMap) (oldId newId : Nat) : List OutputPort → Nat → ElementMap
  | [], _ => m
  | port :: rest, p => insertRegsAux (insertRangeRegs m oldId newId p port.size) oldId newId rest (p + 1)

/-- Modelled from the spec: the old-output→new-output registration performed
by Copy-into (§4.2): every element of every output handle of the old node is
mapped, 1:1 and index-preserving, to the matching element of the new node. -/
def insertRegistrations (m : ElementMap) (oldId newId : Nat) (outputs : List OutputPort) : ElementMap :=
  insertRegsAux m oldId newId outputs 0

/-- Modelled from the spec: `Node::InvokeCopy` / Copy-into (§4.2): remap the
node's inputs through the Element Map, append a structurally identical node
to the target model (its identity being its arena position there), and
register its output elements as the images of the old ones. -/
def copyNodeInto (tgt : Model) (m : ElementMap) (node : Node) : Except TransformError (Model × ElementMap) :=
  match transformInputs m node.inputs with
  | .error e => .error e
  | .ok newInputs =>
    let newId := tgt.nodes.length
    let newNode : Node := { node with id := newId, inputs := newInputs }
    .ok (⟨tgt.nodes ++ [newNode]⟩, insertRegistrations m node.id newId node.outputs)

/-- The node a `stepKind` refinement emits: the same shape, successor kind. -/
def stepNode (n : Node) : Node :=
  match n.behavior with
  | .passive => n
  | .stepKind => { n with kind := n.kind + 1 }

/-- Did the node's Refine-into report "changed"? -/
def nodeChanged (n : Node) : Bool :=
  match n.behavior with
  | .passive => false
  | .stepKind => true

/-- Modelled from the spec: `Node::InvokeRefine` / Refine-into (§4.2): a
`passive` node behaves exactly like Copy-into and reports "no change"; a
`stepKind` node emits its successor-kind replacement and reports "changed". -/
def refineNodeInto (tgt : Model) (m : ElementMap) (node : Node) : Except TransformError (Model × ElementMap × Bool) :=
  match copyNodeInto tgt m (stepNode node) with
  | .error e => .error e
  | .ok (tgt', m') => .ok (tgt', m', nodeChanged node)

/-- The `Model::Visit` fold of `CopyModel` (line 47): invoke Copy-into on
each node in dependency order; on a throw, return the member state at throw
time together with the error. -/
def copyVisit : List Node → Model → ElementMap → Model × ElementMap × Option TransformError
  | [], tgt, m => (tgt, m, none)
  | n :: rest, tgt, m =>
    match copyNodeInto tgt m n with
    | .error e => (tgt, m, some e)
    | .ok (tgt', m') => copyVisit rest tgt' m'

/-- One refinement pass (lines 70-77): visit the current model in dependency
order, invoking Refine-into on each node, OR-ing the "changed" reports, and —
modelled from the spec ("the loop itself tracks only whether the context
considers the current node kind acceptable") — AND-ing the context predicate
over the visited nodes into `isModelCompilable`. -/
def refinePass (ctx : TransformContext) :
    List Node → Model → ElementMap → Bool → Bool → Model × ElementMap × Bool × Bool × Option TransformError
  | [], tgt, m, didAny, isComp => (tgt, m, didAny, isComp, none)
  | n :: rest, tgt, m, didAny, isComp =>
    match refineNodeInto tgt m n with
    | .error e => (tgt, m, didAny, isComp, some e)
    | .ok (tgt', m', changed) =>
      refinePass ctx rest tgt' m' (didAny || changed) (isComp && ctx.IsNodeCompilable n)

/-- Modelled from the spec: the fixed iteration cap `maxRefinementIterations`
declared in `ModelTransformer.h` (not under the source tree); the spec gives
the value 10. -/
def maxRefinementIterations : Nat := 10

/-- `ModelTransformer::FindUncompilableNodes` (lines 150-165): every node of
the model rejected by the context predicate, in traversal order. -/
def FindUncompilableNodes (model : Model) (context : TransformContext) : List Node :=
  model.nodes.filter (fun n => !context.IsNodeCompilable n)

/-- The name put into the non-convergence message (lines 99-104): the runtime
type name of the first uncompilable node, or the empty string when every node
is accepted. -/
def firstUncompilableNodeName (model : Model) (context : TransformContext) : String :=
  match FindUncompilableNodes model context with
  | [] => ""
  | n :: _ => n.GetRuntimeTypeName

/-- The final loop iteration, reached when `++iterationCount >=
maxRefinementIterations` would hold on continuing (`remaining ≤ 1`): the
fixed-point break (lines 91-94) still returns normally, otherwise the
non-convergence error is thrown (lines 97-106) — before the
`while (!_isModelCompilable)` test (line 107) is ever consulted. -/
def refineLoopStop (ctx : TransformContext) (cur : Model) (curMap : ElementMap) :
    Model × ElementMap × Bool × Nat × Option TransformError :=
  match refinePass ctx cur.nodes Model.empty [] false true with
  | (tgt, passMap, didRefineAny, isComp, errOpt) =>
    match errOpt with
    | some e => (tgt, passMap, isComp, 1, some e)
    | none =>
      let newMap := composeStep curMap passMap
      if !didRefineAny then (tgt, newMap, isComp, 1, none)
      else (tgt, newMap, isComp, 1,
        some (.nonConvergence (firstUncompilableNodeName cur ctx)))

/-- The do-while loop of `RefineModel` (lines 62-107).  Returns the final
`_model`, `_elementToElementMap` and `_isModelCompilable` fields, the number
of completed passes (ghost instrumentation counting loop bodies), and the
error if the loop threw.  Each pass runs against a freshly cleared working
map (lines 67-68); the previous map is composed afterwards (lines 80-88); the
fixed-point break (lines 91-94) precedes the cap check (lines 97-106), which
itself precedes the `while (!_isModelCompilable)` test (line 107).

The C++ counts iterations upward and throws when `++iterationCount >=
maxRefinementIterations`; here the counter is rendered as the number of
*remaining* allowed iterations, `remaining = maxRefinementIterations -
iterationCount`, so that the recursion is structural:
`++iterationCount >= maxRefinementIterations` is exactly `remaining ≤ 1`,
the `refineLoopStop` arms. -/
def refineLoop (ctx : TransformContext) : Nat → Model → ElementMap →
    Model × ElementMap × Bool × Nat × Option TransformError
  | 0, cur, curMap => refineLoopStop ctx cur curMap
  | 1, cur, curMap => refineLoopStop ctx cur curMap
  | r + 2, cur, curMap =>
    match refinePass ctx cur.nodes Model.empty [] false true with
    | (tgt, passMap, didRefineAny, isComp, errOpt) =>
      match errOpt with
      | some e => (tgt, passMap, isComp, 1, some e)
      | none =>
        let newMap := composeStep curMap passMap
        if !didRefineAny then (tgt, newMap, isComp, 1, none)
        else if isComp then (tgt, newMap, isComp, 1, none)
        else
          match refineLoop ctx (r + 1) tgt newMap with
          | (fm, fmap, fic, gens, ferr) => (fm, fmap, fic, gens + 1, ferr)

/-- The transformer's member state: `_model`, `_elementToElementMap`,
`_context`, `_isModelCompilable`. -/
structure ModelTransformer where
  model : Model
  elementToElementMap : ElementMap
  context : TransformContext
  isModelCompilable : Bool

/-- A transformer as default-constructed (no call made yet). -/
def ModelTransformer.fresh : ModelTransformer :=
  ⟨Model.empty, [], TransformContext.default, true⟩

/-- `ModelTransformer::CopyModel` (lines 42-51): store the context, reset the
target model, clear the Element Map, visit the source invoking Copy-into,
reset the context to default, and return the built model.  The first
component is the member state after the call (on a throw: at throw time). -/
def CopyModel (tr : ModelTransformer) (oldModel : Model) (context : TransformContext) :
    ModelTransformer × Except TransformError Model :=
  match copyVisit oldModel.nodes Model.empty [] with
  | (tgt, m, some e) =>
    ({ tr with model := tgt, elementToElementMap := m, context := context }, .error e)
  | (tgt, m, none) =>
    ({ tr with model := tgt, elementToElementMap := m, context := TransformContext.default }, .ok tgt)

/-- `ModelTransformer::RefineModel` (lines 53-112): store the context, seed
`_model` with the source, run the refinement loop — whose first iteration
takes over the transformer's *pre-call* Element Map as the previous-generation
map (lines 56, 67: the map is moved, not cleared, at entry) — then on normal
exit clear the context and return the built model.  The first component is
the member state after the call (on a throw: at throw time). -/
def RefineModel (tr : ModelTransformer) (oldModel : Model) (context : TransformContext) :
    ModelTransformer × Except TransformError Model :=
  match refineLoop context maxRefinementIterations oldModel tr.elementToElementMap with
  | (m, fmap, isComp, _, some e) =>
    ({ tr with model := m, elementToElementMap := fmap, context := context,
               isModelCompilable := isComp }, .error e)
  | (m, fmap, isComp, _, none) =>
    ({ tr with model := m, elementToElementMap := fmap, context := TransformContext.default,
               isModelCompilable := isComp }, .ok m)

/-- The number of completed refinement passes ("generations") a `RefineModel`
call performs — ghost instrumentation over the loop. -/
def refineGenerations (tr : ModelTransformer) (oldModel : Model) (context : TransformContext) : Nat :=
  (refineLoop context maxRefinementIterations oldModel tr.elementToElementMap).2.2.2.1

/-- `ModelTransformer::GetCorrespondingOutputs` (lines 135-143): a direct
lookup through `TransformPortElements` on the transformer's current map. -/
def GetCorrespondingOutputs (tr : ModelTransformer) (elements : PortElementsBase) :
    Except TransformError PortElementsBase :=
  TransformPortElements tr.elementToElementMap elements

/-- The caller-visible machine: the caller's source Model object alongside
the transformer.  The C++ takes the source by const reference and copies it
by value (`_model = oldModel`); nodes are never mutated after insertion, so
value semantics is sound. -/
structure Machine where
  source : Model
  transformer : ModelTransformer

/-- `CopyModel` as observed by the caller holding the source Model. -/
def Machine.copyModel (mc : Machine) (ctx : TransformContext) : Machine × Except TransformError Model :=
  match CopyModel mc.transformer mc.source ctx with
  | (tr', r) => ({ mc with transformer := tr' }, r)

/-- `RefineModel` as observed by the caller holding the source Model. -/
def Machine.refineModel (mc : Machine) (ctx : TransformContext) : Machine × Except TransformError Model :=
  match RefineModel mc.transformer mc.source ctx with
  | (tr', r) => ({ mc with transformer := tr' }, r)

/-! ### Lemmas about the Element Map -/

theorem mapFind_mapInsert (m : ElementMap) (k v : PortElementBase) (key : PortElementBase) :
    mapFind (mapInsert m k v) key = if key = k then some v else mapFind m key := by
  induction m with
  | nil => simp [mapInsert, mapFind]
  | cons hd tl ih =>
    obtain ⟨k', v'⟩ := hd
    by_cases hkk : k = k'
    · subst hkk
      by_cases hkey : key = k <;> simp [mapInsert, mapFind, hkey]
    · by_cases hkey : key = k'
      · subst hkey
        have hne : ¬key = k := fun h => hkk h.symm
        simp [mapInsert, if_neg hkk, mapFind, hne]
      · simp [mapInsert, if_neg hkk, mapFind, hkey, ih]

theorem mapFind_composeMaps (cur pm : ElementMap) (key : PortElementBase) :
    mapFind (composeMaps cur pm) key =
      (mapFind cur key).map (fun mid => (mapFind pm mid).getD PortElementBase.nullElement) := by
  induction cur with
  | nil => simp [composeMaps, mapFind]
  | cons hd tl ih =>
    obtain ⟨k', v'⟩ := hd
    by_cases hkey : key = k'
    · subst hkey
      simp [composeMaps, mapFind]
    · simp only [composeMaps, List.map_cons, mapFind, if_neg hkey] at ih ⊢
      exact ih

theorem length_composeMaps (cur pm : ElementMap) :
    (composeMaps cur pm).length = cur.length := by
  simp [composeMaps]

/-! ### Lemmas about consolidation -/

theorem elementList_merge (p : Option OutputPortId) (s a b : Nat) :
    PortRange.elementList ⟨p, s, a + b⟩ =
      PortRange.elementList ⟨p, s, a⟩ ++ PortRange.elementList ⟨p, s + a, b⟩ := by
  simp only [PortRange.elementList, List.range_add, List.map_append, List.map_map]
  congr 1
  apply List.map_congr_left
  intro j _
  simp only [Function.comp_apply]
  congr 1
  omega

/-- Consolidation does not change the logical sequence of referenced
elements (§4.1). -/
theorem flatMap_consolidateRanges (rs : List PortRange) :
    (consolidateRanges rs).flatMap PortRange.elementList = rs.flatMap PortRange.elementList := by
  induction rs with
  | nil => rfl
  | cons r rest ih =>
    rw [consolidateRanges]
    cases hc : consolidateRanges rest with
    | nil =>
      rw [hc] at ih
      simp only [List.flatMap_nil] at ih
      simp only [List.flatMap_cons, ← ih, List.flatMap_nil, List.append_nil]
    | cons r2 rest2 =>
      rw [hc] at ih
      dsimp only
      by_cases hm : r.port = r2.port ∧ r2.startIndex = r.startIndex + r.numValues
      · rw [if_pos hm]
        simp only [List.flatMap_cons] at ih ⊢
        rw [← ih, ← List.append_assoc]
        congr 1
        have h1 : PortRange.elementList r =
            PortRange.elementList ⟨r.port, r.startIndex, r.numValues⟩ := rfl
        have h2 : PortRange.elementList r2 =
            PortRange.elementList ⟨r.port, r.startIndex + r.numValues, r2.numValues⟩ := by
          obtain ⟨hp, hs⟩ := hm
          obtain ⟨p2, s2, n2⟩ := r2
          simp only at hp hs
          rw [← hp, ← hs]
        rw [h1, h2, ← elementList_merge]
      · rw [if_neg hm]
        simp only [List.flatMap_cons] at ih ⊢
        rw [ih]

theorem elementList_consolidate (pe : PortElementsBase) :
    pe.consolidate.elementList = pe.elementList := by
  simp [PortElementsBase.consolidate, PortElementsBase.elementList, flatMap_consolidateRanges]

/-! ### Lemmas about `TransformPortElements` -/

/-- The image list of `es` under the map `m` (total function; missing images
become the null element, matching `operator[]`). -/
def imageList (m : ElementMap) (es : List PortElementBase) : List PortElementBase :=
  es.map (fun e => (mapFind m e).getD PortElementBase.nullElement)

theorem transformElementList_ok (m : ElementMap) (es : List PortElementBase)
    (h : ∀ e ∈ es, (mapFind m e).isSome) :
    transformElementList m es =
      .ok ((imageList m es).map (fun img => ⟨img.referencedPort, img.index, 1⟩)) := by
  induction es with
  | nil => simp [transformElementList, imageList]
  | cons e rest ih =>
    have he : (mapFind m e).isSome := h e (List.mem_cons_self e rest)
    obtain ⟨img, himg⟩ := Option.isSome_iff_exists.mp he
    rw [transformElementList, himg]
    rw [ih (fun x hx => h x (List.mem_cons_of_mem e hx))]
    simp [imageList, himg, Except.map]

theorem transformElementList_error (m : ElementMap) (es : List PortElementBase)
    (h : ∃ e ∈ es, mapFind m e = none) :
    transformElementList m es = .error (.invalidArgument "Could not find element in new model.") := by
  induction es with
  | nil => simp at h
  | cons e rest ih =>
    rw [transformElementList]
    obtain ⟨x, hx, hnone⟩ := h
    rcases List.mem_cons.mp hx with hxe | hxr
    · subst hxe
      rw [hnone]
    · cases hfind : mapFind m e with
      | none => rfl
      | some img => rw [ih ⟨x, hxr, hnone⟩]; rfl

theorem flatMap_singletonRanges (imgs : List PortElementBase) :
    ((imgs.map (fun img => (⟨img.referencedPort, img.index, 1⟩ : PortRange))).flatMap
      PortRange.elementList) = imgs := by
  induction imgs with
  | nil => simp
  | cons img rest ih =>
    simp only [List.map_cons, List.flatMap_cons, ih]
    rfl

/-- `TransformPortElements` succeeds exactly when every element has an image;
the result is the consolidation of the images in input order. -/
theorem TransformPortElements_ok (m : ElementMap) (pe : PortElementsBase)
    (h : ∀ e ∈ pe.elementList, (mapFind m e).isSome) :
    TransformPortElements m pe =
      .ok (PortElementsBase.consolidate
            ⟨(imageList m pe.elementList).map (fun img => ⟨img.referencedPort, img.index, 1⟩)⟩) := by
  rw [TransformPortElements, transformElementList_ok m _ h]
  rfl

theorem TransformPortElements_elementList (m : ElementMap) (pe : PortElementsBase)
    (h : ∀ e ∈ pe.elementList, (mapFind m e).isSome) :
    ∃ r, TransformPortElements m pe = .ok r ∧ r.elementList = imageList m pe.elementList := by
  refine ⟨_, TransformPortElements_ok m pe h, ?_⟩
  rw [elementList_consolidate]
  exact flatMap_singletonRanges _

theorem TransformPortElements_error (m : ElementMap) (pe : PortElementsBase)
    (h : ∃ e ∈ pe.elementList, mapFind m e = none) :
    TransformPortElements m pe = .error (.invalidArgument "Could not find element in new model.") := by
  rw [TransformPortElements, transformElementList_error m _ h]
  rfl

/-! ### Lemmas about output registration -/

/-- The image of an element under the 1:1 registration towards node `newId`:
same port index, same element index, new owning node. -/
def retarget (newId : Nat) (e : PortElementBase) : PortElementBase :=
  match e.referencedPort with
  | none => e
  | some pid => ⟨some ⟨newId, pid.portIndex⟩, e.index⟩

@[simp] theorem retarget_some (newId nid pidx eidx : Nat) :
    retarget newId ⟨some ⟨nid, pidx⟩, eidx⟩ = ⟨some ⟨newId, pidx⟩, eidx⟩ := rfl

/-- Ownership with the port indices shifted by `p` (for the suffix of output
handles whose first handle carries port index `p`). -/
def ownsElementFrom (id : Nat) (outputs : List OutputPort) (p : Nat) (e : PortElementBase) : Bool :=
  match e.referencedPort with
  | none => false
  | some pid =>
    pid.nodeId == id && p ≤ pid.portIndex && pid.portIndex - p < outputs.length &&
      e.index < ((outputs.get? (pid.portIndex - p)).getD ⟨"", 0⟩).size

@[simp] theorem ownsElementFrom_none (id : Nat) (outputs : List OutputPort) (p idx : Nat) :
    ownsElementFrom id outputs p ⟨none, idx⟩ = false := rfl

theorem ownsElementFrom_some_iff (id : Nat) (outputs : List OutputPort) (p nid pidx idx : Nat) :
    ownsElementFrom id outputs p ⟨some ⟨nid, pidx⟩, idx⟩ = true ↔
      nid = id ∧ p ≤ pidx ∧ pidx - p < outputs.length ∧
        idx < ((outputs.get? (pidx - p)).getD ⟨"", 0⟩).size := by
  simp [ownsElementFrom, and_assoc]

theorem ownsElement_eq_from0 (id : Nat) (outputs : List OutputPort) (e : PortElementBase) :
    ownsElement id outputs e = ownsElementFrom id outputs 0 e := by
  obtain ⟨port, idx⟩ := e
  cases port with
  | none => rfl
  | some pid => simp [ownsElement, ownsElementFrom]

theorem ownsElement_some_iff (id : Nat) (outputs : List OutputPort) (nid pidx idx : Nat) :
    ownsElement id outputs ⟨some ⟨nid, pidx⟩, idx⟩ = true ↔
      nid = id ∧ pidx < outputs.length ∧
        idx < ((outputs.get? pidx).getD ⟨"", 0⟩).size := by
  rw [ownsElement_eq_from0, ownsElementFrom_some_iff]
  simp

theorem ownsElementFrom_cons_iff (oldId : Nat) (port : OutputPort) (rest : List OutputPort)
    (p nid pidx eidx : Nat) :
    ownsElementFrom oldId (port :: rest) p ⟨some ⟨nid, pidx⟩, eidx⟩ = true ↔
      ((nid = oldId ∧ pidx = p ∧ eidx < port.size) ∨
        ownsElementFrom oldId rest (p + 1) ⟨some ⟨nid, pidx⟩, eidx⟩ = true) := by
  rw [ownsElementFrom_some_iff, ownsElementFrom_some_iff]
  constructor
  · rintro ⟨h1, h2, h3, h4⟩
    by_cases hp : pidx = p
    · subst hp
      left
      refine ⟨h1, rfl, ?_⟩
      simpa using h4
    · right
      have harith : pidx - p = (pidx - (p + 1)) + 1 := by omega
      rw [harith] at h3 h4
      simp only [List.length_cons] at h3
      refine ⟨h1, by omega, by omega, ?_⟩
      simpa using h4
  · rintro (⟨h1, h2, h3⟩ | ⟨h1, h2, h3, h4⟩)
    · subst h2
      refine ⟨h1, Nat.le_refl _, by simp, ?_⟩
      simpa using h3
    · have harith : pidx - p = (pidx - (p + 1)) + 1 := by omega
      refine ⟨h1, by omega, ?_, ?_⟩ <;> rw [harith]
      · simp only [List.length_cons]
        omega
      · simpa using h4

theorem mapFind_insertRangeRegs (m : ElementMap) (oldId newId p s : Nat) (e : PortElementBase) :
    mapFind (insertRangeRegs m oldId newId p s) e =
      if e.referencedPort = some ⟨oldId, p⟩ ∧ e.index < s
      then some ⟨some ⟨newId, p⟩, e.index⟩
      else mapFind m e := by
  obtain ⟨port, idx⟩ := e
  induction s with
  | zero => simp [insertRangeRegs]
  | succ s ih =>
    rw [insertRangeRegs, mapFind_mapInsert, ih]
    by_cases hport : port = some ⟨oldId, p⟩
    · subst hport
      by_cases hidx : idx = s
      · subst hidx
        simp
      · have h1 : (⟨some ⟨oldId, p⟩, idx⟩ : PortElementBase) ≠ ⟨some ⟨oldId, p⟩, s⟩ := by
          simp [hidx]
        rw [if_neg h1]
        by_cases hlt : idx < s
        · rw [if_pos ⟨rfl, hlt⟩, if_pos ⟨rfl, show idx < s + 1 from by omega⟩]
        · rw [if_neg (fun hc => hlt hc.2),
            if_neg (fun hc => absurd (show idx < s + 1 from hc.2) (by omega))]
    · have h1 : (⟨port, idx⟩ : PortElementBase) ≠ ⟨some ⟨oldId, p⟩, s⟩ := by
        simp only [ne_eq, PortElementBase.mk.injEq, not_and]
        intro hc
        exact absurd hc hport
      rw [if_neg h1, if_neg (fun hc => hport hc.1), if_neg (fun hc => hport hc.1)]

theorem mapFind_insertRegsAux_unowned (oldId newId : Nat) (outputs : List OutputPort)
    (m : ElementMap) (p : Nat) (e : PortElementBase)
    (h : ownsElementFrom oldId outputs p e = false) :
    mapFind (insertRegsAux m oldId newId outputs p) e = mapFind m e := by
  induction outputs generalizing m p with
  | nil => rw [insertRegsAux]
  | cons port rest ih =>
    rw [insertRegsAux]
    obtain ⟨eport, eidx⟩ := e
    cases eport with
    | none =>
      rw [ih _ _ (by simp), mapFind_insertRangeRegs]
      simp
    | some pid =>
      obtain ⟨nid, pidx⟩ := pid
      have hnot : ¬(ownsElementFrom oldId (port :: rest) p ⟨some ⟨nid, pidx⟩, eidx⟩ = true) := by
        simp [h]
      rw [ownsElementFrom_cons_iff] at hnot
      push_neg at hnot
      obtain ⟨hrange, hrest⟩ := hnot
      rw [ih _ _ (Bool.eq_false_iff.mpr hrest), mapFind_insertRangeRegs]
      rw [if_neg]
      intro hc
      obtain ⟨hc1, hc2⟩ := hc
      simp only [Option.some.injEq, OutputPortId.mk.injEq] at hc1
      simp only at hc2
      exact absurd hc2 (by
        have := hrange hc1.1 hc1.2
        simpa using this)

theorem mapFind_insertRegsAux_owned (oldId newId : Nat) (outputs : List OutputPort)
    (m : ElementMap) (p : Nat) (e : PortElementBase)
    (h : ownsElementFrom oldId outputs p e = true) :
    mapFind (insertRegsAux m oldId newId outputs p) e = some (retarget newId e) := by
  induction outputs generalizing m p with
  | nil =>
    exfalso
    obtain ⟨eport, eidx⟩ := e
    cases eport with
    | none => simp at h
    | some pid =>
      obtain ⟨nid, pidx⟩ := pid
      rw [ownsElementFrom_some_iff] at h
      simp at h
  | cons port rest ih =>
    rw [insertRegsAux]
    obtain ⟨eport, eidx⟩ := e
    cases eport with
    | none => simp at h
    | some pid =>
      obtain ⟨nid, pidx⟩ := pid
      rw [ownsElementFrom_cons_iff] at h
      rcases h with ⟨h1, h2, h3⟩ | hrest
      · subst h1
        subst h2
        have hrestF : ownsElementFrom nid rest (pidx + 1) ⟨some ⟨nid, pidx⟩, eidx⟩ = false := by
          rw [Bool.eq_false_iff]
          intro hc
          rw [ownsElementFrom_some_iff] at hc
          obtain ⟨-, hle, -, -⟩ := hc
          omega
        rw [mapFind_insertRegsAux_unowned _ _ _ _ _ _ hrestF, mapFind_insertRangeRegs]
        rw [if_pos ⟨rfl, h3⟩]
        rfl
      · exact ih _ _ hrest

theorem mapFind_insertRegistrations (m : ElementMap) (oldId newId : Nat)
    (outputs : List OutputPort) (e : PortElementBase) :
    mapFind (insertRegistrations m oldId newId outputs) e =
      if ownsElement oldId outputs e = true then some (retarget newId e) else mapFind m e := by
  by_cases h : ownsElement oldId outputs e = true
  · rw [if_pos h, insertRegistrations,
      mapFind_insertRegsAux_owned _ _ _ _ _ _ ((ownsElement_eq_from0 _ _ _) ▸ h)]
  · rw [if_neg h, insertRegistrations,
      mapFind_insertRegsAux_unowned _ _ _ _ _ _
        ((ownsElement_eq_from0 _ _ _) ▸ (Bool.eq_false_iff.mpr h))]

/-! ### Pass invariant machinery -/

/-- A placeholder node used only as the default of `List.get?` lookups. -/
def defaultNode : Node := ⟨0, 0, [], [], .passive⟩

/-- The node of `mo` at position `t` (arbitrary default out of range). -/
def nodeAt (mo : Model) (t : Nat) : Node := (mo.nodes.get? t).getD defaultNode

theorem ownsElement_ne (i i' : Nat) (outs outs' : List OutputPort) (e : PortElementBase)
    (h : ownsElement i outs e = true) (hne : i' ≠ i) : ownsElement i' outs' e = false := by
  obtain ⟨port, idx⟩ := e
  cases port with
  | none => simp [ownsElement] at h
  | some pid =>
    obtain ⟨nid, pidx⟩ := pid
    rw [ownsElement_some_iff] at h
    rw [Bool.eq_false_iff]
    intro hc
    rw [ownsElement_some_iff] at hc
    exact hne (hc.1 ▸ h.1.symm ▸ rfl)

theorem owns_retarget (i k : Nat) (outs : List OutputPort) (e : PortElementBase)
    (h : ownsElement i outs e = true) : ownsElement k outs (retarget k e) = true := by
  obtain ⟨port, idx⟩ := e
  cases port with
  | none => simp [ownsElement] at h
  | some pid =>
    obtain ⟨nid, pidx⟩ := pid
    rw [ownsElement_some_iff] at h
    rw [retarget_some, ownsElement_some_iff]
    exact ⟨rfl, h.2.1, h.2.2⟩

theorem wfFrom_append_singleton (acc xs : List Node) (y : Node) :
    wfFrom acc (xs ++ [y]) = (wfFrom acc xs && inputsResolvable (acc ++ xs) y) := by
  induction xs generalizing acc with
  | nil => simp [wfFrom]
  | cons hd tl ih =>
    show (inputsResolvable acc hd && wfFrom (acc ++ [hd]) (tl ++ [y])) =
      ((inputsResolvable acc hd && wfFrom (acc ++ [hd]) tl) && inputsResolvable (acc ++ hd :: tl) y)
    rw [ih (acc ++ [hd]), Bool.and_assoc]
    have happ : (acc ++ [hd]) ++ tl = acc ++ hd :: tl := by simp
    rw [happ]

theorem transformInputs_ok (m : ElementMap) (inputs : List PortElementsBase)
    (h : ∀ pe ∈ inputs, ∀ e ∈ pe.elementList, (mapFind m e).isSome) :
    ∃ outs, transformInputs m inputs = .ok outs ∧
      List.Forall₂ (fun pe out => PortElementsBase.elementList out = imageList m pe.elementList)
        inputs outs := by
  induction inputs with
  | nil => exact ⟨[], rfl, List.Forall₂.nil⟩
  | cons pe rest ih =>
    obtain ⟨r, hr, hrel⟩ :=
      TransformPortElements_elementList m pe (h pe (List.mem_cons_self pe rest))
    obtain ⟨outs, houts, hall⟩ := ih (fun x hx => h x (List.mem_cons_of_mem pe hx))
    refine ⟨r :: outs, ?_, List.Forall₂.cons hrel hall⟩
    rw [transformInputs, hr, houts]

/-- The invariant maintained node by node through a copy or refinement pass:
`em` is the per-node emission (`emCopy` for Copy-into, `stepNode` for
Refine-into), `ps` the processed prefix of the source model, `tgt` the target
model and `m` the working Element Map built so far. -/
def PassInv (em : Node → Node) (ps : List Node) (tgt : Model) (m : ElementMap) : Prop :=
  tgt.nodes.length = ps.length ∧
  wfFrom [] tgt.nodes = true ∧
  (∀ t, t < ps.length → ∃ ins,
      tgt.nodes.get? t = some { em ((ps.get? t).getD defaultNode) with id := t, inputs := ins }) ∧
  (∀ t, t < ps.length → ∀ e,
      ownsElement ((ps.get? t).getD defaultNode).id ((ps.get? t).getD defaultNode).outputs e = true →
      mapFind m e = some (retarget t e))

/-- The Copy-into emission: the node is emitted unchanged. -/
def emCopy : Node → Node := fun n => n

/-- An emission that changes neither identity, inputs nor outputs. -/
def preservesShape (em : Node → Node) : Prop :=
  ∀ x, (em x).id = x.id ∧ (em x).inputs = x.inputs ∧ (em x).outputs = x.outputs

theorem preservesShape_emCopy : preservesShape emCopy := fun _ => ⟨rfl, rfl, rfl⟩

theorem preservesShape_stepNode : preservesShape stepNode := by
  intro x
  cases hb : x.behavior <;> simp [stepNode, hb]

theorem PassInv_empty (em : Node → Node) : PassInv em [] Model.empty [] := by
  refine ⟨rfl, rfl, ?_, ?_⟩ <;> intro t ht <;> simp at ht

theorem forall₂_mem_right {α β : Type} {R : α → β → Prop} {l₁ : List α} {l₂ : List β}
    (h : List.Forall₂ R l₁ l₂) : ∀ b ∈ l₂, ∃ a ∈ l₁, R a b := by
  induction h with
  | nil => intro b hb; simp at hb
  | cons hr _ ih =>
    intro b hb
    rcases List.mem_cons.mp hb with hb | hb
    · subst hb
      exact ⟨_, List.mem_cons_self _ _, hr⟩
    · obtain ⟨a, ha, hab⟩ := ih b hb
      exact ⟨a, List.mem_cons_of_mem _ ha, hab⟩

/-- The single-node step of a pass: under the invariant, emitting one node
succeeds and re-establishes the invariant. -/
theorem copyNodeInto_step (em : Node → Node) (hem : preservesShape em)
    (ps : List Node) (tgt : Model) (m : ElementMap) (n : Node)
    (hinv : PassInv em ps tgt m)
    (hres : inputsResolvable ps n = true)
    (hid : ∀ t, t < ps.length → ((ps.get? t).getD defaultNode).id ≠ n.id) :
    ∃ outs, copyNodeInto tgt m (em n) =
        .ok (⟨tgt.nodes ++ [{ em n with id := tgt.nodes.length, inputs := outs }]⟩,
             insertRegistrations m n.id tgt.nodes.length n.outputs) ∧
      PassInv em (ps ++ [n])
        ⟨tgt.nodes ++ [{ em n with id := tgt.nodes.length, inputs := outs }]⟩
        (insertRegistrations m n.id tgt.nodes.length n.outputs) := by
  obtain ⟨hlen, hwfT, hshape, hmap⟩ := hinv
  -- every input element of the node has an image in the working map,
  -- and that image is owned by a node of the target model
  have hok : ∀ e : PortElementBase, (ps.any (fun q => ownsElement q.id q.outputs e)) = true →
      ∃ t, t < ps.length ∧ mapFind m e = some (retarget t e) ∧
        ownsElement ((ps.get? t).getD defaultNode).id ((ps.get? t).getD defaultNode).outputs e
          = true := by
    intro e h1
    rw [List.any_eq_true] at h1
    obtain ⟨q, hq, hqo⟩ := h1
    obtain ⟨⟨t, ht⟩, hqt⟩ := List.mem_iff_get.mp hq
    have hqd : (ps.get? t).getD defaultNode = q := by
      rw [List.get?_eq_get ht, Option.getD_some, hqt]
    refine ⟨t, ht, ?_, ?_⟩
    · exact hmap t ht e (by rw [hqd]; exact hqo)
    · rw [hqd]; exact hqo
  have hres' : ∀ pe ∈ n.inputs, ∀ e ∈ pe.elementList,
      (ps.any (fun q => ownsElement q.id q.outputs e)) = true := by
    intro pe hpe e he
    rw [inputsResolvable, List.all_eq_true] at hres
    have h2 := hres pe hpe
    rw [List.all_eq_true] at h2
    exact h2 e he
  have hsome : ∀ pe ∈ (em n).inputs, ∀ e ∈ pe.elementList, (mapFind m e).isSome := by
    rw [(hem n).2.1]
    intro pe hpe e he
    obtain ⟨t, _, hfind, -⟩ := hok e (hres' pe hpe e he)
    rw [hfind]
    rfl
  obtain ⟨outs, houts, hrel⟩ := transformInputs_ok m (em n).inputs hsome
  have hstep : copyNodeInto tgt m (em n) =
      .ok (⟨tgt.nodes ++ [{ em n with id := tgt.nodes.length, inputs := outs }]⟩,
           insertRegistrations m n.id tgt.nodes.length n.outputs) := by
    rw [copyNodeInto, houts]
    simp [(hem n).1, (hem n).2.2]
  refine ⟨outs, hstep, ?_, ?_, ?_, ?_⟩
  · simp [hlen]
  · -- well-formedness of the grown target
    rw [wfFrom_append_singleton]
    rw [show ([] : List Node) ++ tgt.nodes = tgt.nodes from rfl]
    rw [hwfT]
    rw [Bool.true_and]
    rw [inputsResolvable, List.all_eq_true]
    intro pe hpe
    rw [List.all_eq_true]
    intro x hx
    simp only at hpe
    obtain ⟨pe0, hpe0, hpe0rel⟩ := forall₂_mem_right hrel pe hpe
    rw [hpe0rel, imageList, List.mem_map] at hx
    obtain ⟨e, he, hxe⟩ := hx
    have hpe0' : pe0 ∈ n.inputs := by
      rw [(hem n).2.1] at hpe0
      exact hpe0
    obtain ⟨t, ht, hfind, howns⟩ := hok e (hres' pe0 hpe0' e he)
    rw [hfind] at hxe
    simp only [Option.getD_some] at hxe
    subst hxe
    rw [List.any_eq_true]
    obtain ⟨ins, hins⟩ := hshape t ht
    refine ⟨{ em ((ps.get? t).getD defaultNode) with id := t, inputs := ins },
      List.get?_mem hins, ?_⟩
    simp only
    have houtEq : (em ((ps.get? t).getD defaultNode)).outputs =
        ((ps.get? t).getD defaultNode).outputs := (hem _).2.2
    rw [houtEq]
    exact owns_retarget _ t _ e howns
  · -- shape of the grown target
    intro t ht
    simp only [List.length_append, List.length_cons, List.length_nil] at ht
    by_cases htl : t < ps.length
    · obtain ⟨ins, hins⟩ := hshape t htl
      refine ⟨ins, ?_⟩
      rw [List.get?_append (by omega), hins, List.get?_append (by omega)]
    · have hteq : t = ps.length := by omega
      subst hteq
      refine ⟨outs, ?_⟩
      have h2 : ((ps ++ [n]).get? ps.length).getD defaultNode = n := by
        rw [List.get?_concat_length]
        rfl
      rw [h2, ← hlen]
      exact List.get?_concat_length _ _
  · -- the grown map
    intro t ht e howns
    simp only [List.length_append, List.length_cons, List.length_nil] at ht
    rw [mapFind_insertRegistrations]
    by_cases htl : t < ps.length
    · have hg : ((ps ++ [n]).get? t).getD defaultNode = (ps.get? t).getD defaultNode := by
        rw [List.get?_append (by omega)]
      rw [hg] at howns
      have hfalse : ownsElement n.id n.outputs e = false :=
        ownsElement_ne ((ps.get? t).getD defaultNode).id n.id
          ((ps.get? t).getD defaultNode).outputs n.outputs e howns
          (fun hc => hid t htl hc.symm)
      rw [if_neg (by rw [hfalse]; simp)]
      exact hmap t htl e howns
    · have hteq : t = ps.length := by omega
      subst hteq
      have hg : ((ps ++ [n]).get? ps.length).getD defaultNode = n := by
        rw [List.get?_concat_length]
        rfl
      rw [hg] at howns
      rw [if_pos howns, hlen]

theorem nodup_head_ne (ps : List Node) (n : Node) (rest : List Node)
    (h : ((ps ++ n :: rest).map (fun x => x.id)).Nodup) :
    ∀ t, t < ps.length → ((ps.get? t).getD defaultNode).id ≠ n.id := by
  intro t ht hc
  rw [List.map_append, List.nodup_append] at h
  obtain ⟨-, -, hdisj⟩ := h
  have hmem1 : ((ps.get? t).getD defaultNode).id ∈ ps.map (fun x => x.id) := by
    refine List.mem_map.mpr ⟨(ps.get? t).getD defaultNode, ?_, rfl⟩
    rw [List.get?_eq_get ht, Option.getD_some]
    exact List.get_mem ps t ht
  have hmem2 : ((ps.get? t).getD defaultNode).id ∈ (n :: rest).map (fun x => x.id) := by
    rw [hc]
    simp
  exact hdisj hmem1 hmem2

theorem copyVisit_ok (ns ps : List Node) (tgt : Model) (m : ElementMap)
    (hinv : PassInv emCopy ps tgt m)
    (hwf : wfFrom ps ns = true)
    (hids : ((ps ++ ns).map (fun x => x.id)).Nodup) :
    ∃ tgt' m', copyVisit ns tgt m = (tgt', m', none) ∧ PassInv emCopy (ps ++ ns) tgt' m' := by
  induction ns generalizing ps tgt m with
  | nil => exact ⟨tgt, m, rfl, by simpa using hinv⟩
  | cons n rest ih =>
    rw [wfFrom, Bool.and_eq_true] at hwf
    obtain ⟨hres, hwf'⟩ := hwf
    have hid := nodup_head_ne ps n rest hids
    obtain ⟨outs, hstep, hinv'⟩ :=
      copyNodeInto_step emCopy preservesShape_emCopy ps tgt m n hinv hres hid
    have hids' : (((ps ++ [n]) ++ rest).map (fun x => x.id)).Nodup := by
      rw [List.append_assoc]
      simpa using hids
    obtain ⟨tgt', m', hvisit, hinv''⟩ := ih (ps ++ [n]) _ _ hinv' hwf' hids'
    refine ⟨tgt', m', ?_, by rw [List.append_assoc] at hinv''; simpa using hinv''⟩
    rw [copyVisit, show copyNodeInto tgt m n = copyNodeInto tgt m (emCopy n) from rfl, hstep]
    exact hvisit

theorem refinePass_ok (ctx : TransformContext) (ns ps : List Node) (tgt : Model) (m : ElementMap)
    (didAny isComp : Bool)
    (hinv : PassInv stepNode ps tgt m)
    (hwf : wfFrom ps ns = true)
    (hids : ((ps ++ ns).map (fun x => x.id)).Nodup) :
    ∃ tgt' m', refinePass ctx ns tgt m didAny isComp =
        (tgt', m', didAny || ns.any nodeChanged, isComp && ns.all ctx.IsNodeCompilable, none) ∧
      PassInv stepNode (ps ++ ns) tgt' m' := by
  induction ns generalizing ps tgt m didAny isComp with
  | nil => exact ⟨tgt, m, by simp [refinePass], by simpa using hinv⟩
  | cons n rest ih =>
    rw [wfFrom, Bool.and_eq_true] at hwf
    obtain ⟨hres, hwf'⟩ := hwf
    have hid := nodup_head_ne ps n rest hids
    obtain ⟨outs, hstep, hinv'⟩ :=
      copyNodeInto_step stepNode preservesShape_stepNode ps tgt m n hinv hres hid
    have hids' : (((ps ++ [n]) ++ rest).map (fun x => x.id)).Nodup := by
      rw [List.append_assoc]
      simpa using hids
    obtain ⟨tgt', m', hrest, hinv''⟩ :=
      ih (ps ++ [n]) _ _ (didAny || nodeChanged n) (isComp && ctx.IsNodeCompilable n)
        hinv' hwf' hids'
    refine ⟨tgt', m', ?_, by rw [List.append_assoc] at hinv''; simpa using hinv''⟩
    rw [refinePass, refineNodeInto, hstep]
    show refinePass ctx rest _ _ (didAny || nodeChanged n) (isComp && ctx.IsNodeCompilable n) = _
    rw [hrest]
    simp [Bool.or_assoc, Bool.and_assoc]

/-! ### Model-level consequences of the pass invariant -/

theorem nodupBool_iff (l : List Nat) : nodupBool l = true ↔ l.Nodup := by
  induction l with
  | nil => simp [nodupBool]
  | cons x xs ih =>
    rw [nodupBool, Bool.and_eq_true, ih, List.nodup_cons]
    constructor
    · rintro ⟨h1, h2⟩
      refine ⟨fun hc => ?_, h2⟩
      rw [Bool.not_eq_true', Bool.eq_false_iff] at h1
      exact h1 (List.elem_iff.mpr hc)
    · rintro ⟨h1, h2⟩
      refine ⟨?_, h2⟩
      rw [Bool.not_eq_true', Bool.eq_false_iff]
      intro hc
      exact h1 (List.elem_iff.mp hc)

theorem kinds_eq_of_passInv {em : Node → Node} {ps : List Node} {tgt : Model} {m : ElementMap}
    (hinv : PassInv em ps tgt m) :
    tgt.nodes.map (fun x => x.kind) = ps.map (fun x => (em x).kind) := by
  obtain ⟨hlen, -, hshape, -⟩ := hinv
  apply List.ext_get?
  intro t
  rw [List.get?_map, List.get?_map]
  by_cases ht : t < ps.length
  · obtain ⟨ins, hins⟩ := hshape t ht
    rw [hins, List.get?_eq_get ht, Option.map_some', Option.map_some']
    have hd : (ps.get? t).getD defaultNode = ps.get ⟨t, ht⟩ := by
      rw [List.get?_eq_get ht, Option.getD_some]
    simp
  · rw [List.get?_eq_none.mpr (show tgt.nodes.length ≤ t from by omega),
      List.get?_eq_none.mpr (show ps.length ≤ t from by omega)]
    rfl

theorem outputs_eq_of_passInv {em : Node → Node} {ps : List Node} {tgt : Model} {m : ElementMap}
    (hem : preservesShape em) (hinv : PassInv em ps tgt m) :
    tgt.nodes.map (fun x => x.outputs) = ps.map (fun x => x.outputs) := by
  obtain ⟨hlen, -, hshape, -⟩ := hinv
  apply List.ext_get?
  intro t
  rw [List.get?_map, List.get?_map]
  by_cases ht : t < ps.length
  · obtain ⟨ins, hins⟩ := hshape t ht
    rw [hins, List.get?_eq_get ht, Option.map_some', Option.map_some']
    have hd : (ps.get? t).getD defaultNode = ps.get ⟨t, ht⟩ := by
      rw [List.get?_eq_get ht, Option.getD_some]
    simp [(hem _).2.2]
  · rw [List.get?_eq_none.mpr (show tgt.nodes.length ≤ t from by omega),
      List.get?_eq_none.mpr (show ps.length ≤ t from by omega)]

theorem ids_eq_range_of_passInv {em : Node → Node} {ps : List Node} {tgt : Model} {m : ElementMap}
    (hinv : PassInv em ps tgt m) :
    tgt.nodes.map (fun x => x.id) = List.range tgt.nodes.length := by
  obtain ⟨hlen, -, hshape, -⟩ := hinv
  apply List.ext_get?
  intro t
  rw [List.get?_map]
  by_cases ht : t < ps.length
  · obtain ⟨ins, hins⟩ := hshape t ht
    rw [hins, List.get?_range (show t < tgt.nodes.length from by omega), Option.map_some']
  · rw [List.get?_eq_none.mpr (show tgt.nodes.length ≤ t from by omega),
      List.get?_eq_none.mpr (show (List.range tgt.nodes.length).length ≤ t from by
        rw [List.length_range]; omega)]
    rfl

theorem idsNodup_of_passInv {em : Node → Node} {ps : List Node} {tgt : Model} {m : ElementMap}
    (hinv : PassInv em ps tgt m) :
    (tgt.nodes.map (fun x => x.id)).Nodup := by
  rw [ids_eq_range_of_passInv hinv]
  exact List.nodup_range _

/-- Images under the pass map of elements of the pass's source model are
elements of the pass's target model. -/
theorem passmap_resolves {em : Node → Node} (hem : preservesShape em) {cur tgt : Model}
    {pm : ElementMap} (hinv : PassInv em cur.nodes tgt pm) :
    ∀ e, cur.hasElement e = true → ∃ e', mapFind pm e = some e' ∧ tgt.hasElement e' = true := by
  intro e he
  rw [Model.hasElement, List.any_eq_true] at he
  obtain ⟨q, hq, hqo⟩ := he
  obtain ⟨⟨t, ht⟩, hqt⟩ := List.mem_iff_get.mp hq
  have hqd : (cur.nodes.get? t).getD defaultNode = q := by
    rw [List.get?_eq_get ht, Option.getD_some, hqt]
  obtain ⟨-, -, hshape, hmap⟩ := hinv
  refine ⟨retarget t e, hmap t ht e (by rw [hqd]; exact hqo), ?_⟩
  rw [Model.hasElement, List.any_eq_true]
  obtain ⟨ins, hins⟩ := hshape t ht
  refine ⟨_, List.get?_mem hins, ?_⟩
  simp only
  rw [(hem _).2.2, hqd]
  exact owns_retarget q.id t q.outputs e hqo

/-- Composing the previous generation's map with a pass map turns a map that
resolves the original model into the pass's source into one that resolves it
into the pass's target. -/
theorem compose_resolves {orig cur tgt : Model} {curMap pm : ElementMap}
    (hinv : PassInv stepNode cur.nodes tgt pm)
    (hres : ∀ e, orig.hasElement e = true →
      ∃ e', mapFind curMap e = some e' ∧ cur.hasElement e' = true) :
    ∀ e, orig.hasElement e = true →
      ∃ e', mapFind (composeStep curMap pm) e = some e' ∧ tgt.hasElement e' = true := by
  intro e he
  obtain ⟨mid, hmid, hmidcur⟩ := hres e he
  have hne : curMap ≠ [] := by
    intro hc
    subst hc
    simp [mapFind] at hmid
  rw [composeStep, if_pos (by
    have := List.length_pos.mpr hne
    omega)]
  obtain ⟨e', he', htgt⟩ := passmap_resolves preservesShape_stepNode hinv mid hmidcur
  refine ⟨e', ?_, htgt⟩
  rw [mapFind_composeMaps, hmid, Option.map_some', he', Option.getD_some]

/-- One whole refinement pass over a well-formed model with distinct ids. -/
theorem refinePass_model (ctx : TransformContext) (cur : Model)
    (hwf : cur.wf = true) (hids : (cur.nodes.map (fun x => x.id)).Nodup) :
    ∃ tgt pm, refinePass ctx cur.nodes Model.empty [] false true =
        (tgt, pm, cur.nodes.any nodeChanged, cur.nodes.all ctx.IsNodeCompilable, none) ∧
      PassInv stepNode cur.nodes tgt pm := by
  obtain ⟨tgt, pm, hpass, hinv⟩ := refinePass_ok ctx cur.nodes [] Model.empty [] false true
    (PassInv_empty stepNode) hwf (by simpa using hids)
  refine ⟨tgt, pm, ?_, by simpa using hinv⟩
  simpa using hpass


/-- Resolution carried through the final loop iteration when it returns
normally (the fixed-point break). -/
theorem refineLoopStop_resolves (ctx : TransformContext) (orig cur : Model)
    (curMap : ElementMap)
    (hwf : cur.wf = true) (hids : (cur.nodes.map (fun x => x.id)).Nodup)
    (hdisj : (curMap = [] ∧ cur = orig) ∨
      (∀ e, orig.hasElement e = true →
        ∃ e', mapFind curMap e = some e' ∧ cur.hasElement e' = true)) :
    ∀ fm fmap fic gens, refineLoopStop ctx cur curMap = (fm, fmap, fic, gens, none) →
      ∀ e, orig.hasElement e = true →
        ∃ e', mapFind fmap e = some e' ∧ fm.hasElement e' = true := by
  intro fm fmap fic gens hloop
  obtain ⟨tgt, pm, hpass, hinv⟩ := refinePass_model ctx cur hwf hids
  rw [refineLoopStop, hpass] at hloop
  have hnext : ∀ e, orig.hasElement e = true →
      ∃ e', mapFind (composeStep curMap pm) e = some e' ∧ tgt.hasElement e' = true := by
    rcases hdisj with ⟨hm, hco⟩ | hres
    · subst hm
      subst hco
      intro e he
      obtain ⟨e', h1, h2⟩ := passmap_resolves preservesShape_stepNode hinv e he
      refine ⟨e', ?_, h2⟩
      simpa [composeStep] using h1
    · exact compose_resolves hinv hres
  cases hda : cur.nodes.any nodeChanged <;> rw [hda] at hloop <;> simp at hloop
  obtain ⟨hfm, hfmap, -, -⟩ := hloop
  subst hfm
  subst hfmap
  exact hnext

/-- Through the refinement loop, a map that resolves the original model's
elements into the current generation keeps resolving them into each new
generation, and on a normal exit resolves them into the final model.  The
left disjunct covers the first iteration of a freshly started call. -/
theorem refineLoop_resolves (ctx : TransformContext) (orig : Model) :
    ∀ (remaining : Nat) (cur : Model) (curMap : ElementMap),
      cur.wf = true → (cur.nodes.map (fun x => x.id)).Nodup →
      ((curMap = [] ∧ cur = orig) ∨
        (∀ e, orig.hasElement e = true →
          ∃ e', mapFind curMap e = some e' ∧ cur.hasElement e' = true)) →
      ∀ fm fmap fic gens,
        refineLoop ctx remaining cur curMap = (fm, fmap, fic, gens, none) →
        ∀ e, orig.hasElement e = true →
          ∃ e', mapFind fmap e = some e' ∧ fm.hasElement e' = true := by
  intro remaining
  induction remaining with
  | zero =>
    intro cur curMap hwf hids hdisj fm fmap fic gens hloop
    rw [refineLoop] at hloop
    exact refineLoopStop_resolves ctx orig cur curMap hwf hids hdisj fm fmap fic gens hloop
  | succ n ihn =>
    cases n with
    | zero =>
      intro cur curMap hwf hids hdisj fm fmap fic gens hloop
      rw [refineLoop] at hloop
      exact refineLoopStop_resolves ctx orig cur curMap hwf hids hdisj fm fmap fic gens hloop
    | succ r =>
      intro cur curMap hwf hids hdisj fm fmap fic gens hloop
      rw [refineLoop] at hloop
      obtain ⟨tgt, pm, hpass, hinv⟩ := refinePass_model ctx cur hwf hids
      rw [hpass] at hloop
      dsimp only at hloop
      have hnext : ∀ e, orig.hasElement e = true →
          ∃ e', mapFind (composeStep curMap pm) e = some e' ∧ tgt.hasElement e' = true := by
        rcases hdisj with ⟨hm, hco⟩ | hres
        · subst hm
          subst hco
          intro e he
          obtain ⟨e', h1, h2⟩ := passmap_resolves preservesShape_stepNode hinv e he
          refine ⟨e', ?_, h2⟩
          simpa [composeStep] using h1
        · exact compose_resolves hinv hres
      have hwf' : tgt.wf = true := hinv.2.1
      have hids' : (tgt.nodes.map (fun x => x.id)).Nodup := idsNodup_of_passInv hinv
      cases hda : cur.nodes.any nodeChanged <;> rw [hda] at hloop
      · simp at hloop
        obtain ⟨hfm, hfmap, -, -⟩ := hloop
        subst hfm
        subst hfmap
        exact hnext
      · cases hic : cur.nodes.all ctx.IsNodeCompilable <;> rw [hic] at hloop
        · rcases hrec : refineLoop ctx (r + 1) tgt (composeStep curMap pm) with
            ⟨fm', fmap', fic', gens', ferr'⟩
          rw [show (refineLoop ctx (r + 1) tgt (composeStep curMap pm)) =
            (fm', fmap', fic', gens', ferr') from hrec] at hloop
          simp at hloop
          obtain ⟨hfm, hfmap, -, -, herr⟩ := hloop
          subst hfm
          subst hfmap
          subst herr
          exact ihn tgt (composeStep curMap pm) hwf' hids' (Or.inr hnext)
            fm' fmap' fic' gens' hrec
        · simp at hloop
          obtain ⟨hfm, hfmap, -, -⟩ := hloop
          subst hfm
          subst hfmap
          exact hnext

/-! ### Concrete fixtures used by witnesses and counterexamples -/

/-- A terminal node with one single-element output that always copies. -/
def passiveNode : Node := ⟨0, 0, [], [⟨"double", 1⟩], .passive⟩

def passiveModel : Model := ⟨[passiveNode]⟩

/-- A node that rewrites itself into its successor kind on every pass. -/
def stepStartNode : Node := ⟨0, 0, [], [⟨"double", 1⟩], .stepKind⟩

def stepModel : Model := ⟨[stepStartNode]⟩

/-- A context accepting exactly the kind reached after nine rewrites. -/
def ctxKind9 : TransformContext := ⟨fun n => n.kind == 9⟩

/-- A transformer still holding an Element Map entry from a previous call. -/
def staleTransformer : ModelTransformer :=
  { ModelTransformer.fresh with elementToElementMap := [(⟨some ⟨7, 3⟩, 5⟩, ⟨some ⟨8, 4⟩, 6⟩)] }

/-- Element 0 of output port 0 of node 0. -/
def e00 : PortElementBase := ⟨some ⟨0, 0⟩, 0⟩

/-- A consumer of `passiveNode`'s output, giving a two-node chain. -/
def prodNode : Node := ⟨1, 5, [PortElementsBase.fromPort ⟨0, 0⟩ 1], [⟨"double", 2⟩], .passive⟩

def chainModel : Model := ⟨[passiveNode, prodNode]⟩

/-! ### Claim theorems -/

/-- C9: in the RefineModel map-composition step, for any entry `(old, mid)`
of the previous generation's map whose intermediate reference `mid` has no
image in the pass's freshly built Element Map, the composition installs a
default-constructed (null) Element Reference as `old`'s image instead of
raising the invalid-reference error; map composition itself never fails, for
any pair of maps — it is a total function producing one entry per entry of
the previous map. -/
theorem C9_composition_installs_null (curMap pm : ElementMap) :
    (composeMaps curMap pm).length = curMap.length ∧
    (∀ old, mapFind (composeMaps curMap pm) old =
      (mapFind curMap old).map (fun mid => (mapFind pm mid).getD PortElementBase.nullElement)) ∧
    (∀ old mid, mapFind curMap old = some mid → mapFind pm mid = none →
      mapFind (composeMaps curMap pm) old = some PortElementBase.nullElement) := by
  refine ⟨length_composeMaps curMap pm, mapFind_composeMaps curMap pm, ?_⟩
  intro old mid h1 h2
  rw [mapFind_composeMaps, h1, Option.map_some', h2]
  rfl

/-- C9 witness: composing the stale entry with an empty pass map installs the
null element. -/
theorem C9_witness :
    mapFind (composeMaps [(e00, e00)] []) e00 = some PortElementBase.nullElement :=
  (C9_composition_installs_null [(e00, e00)] []).2.2 e00 e00 (by decide) (by decide)

/-- C3: for every Element Set passed to TransformPortElements: if every
Element Reference in it has an image in the Element Map, the call returns the
sequence of images in the same order as the input, consolidated, and raises
no error; if any Element Reference lacks an image, the call fails with the
invalid-reference error and returns no partial result. -/
theorem C3_transform_port_elements (m : ElementMap) (pe : PortElementsBase) :
    ((∀ e ∈ pe.elementList, (mapFind m e).isSome) →
      ∃ r, TransformPortElements m pe = .ok r ∧
        r = PortElementsBase.consolidate
          ⟨(imageList m pe.elementList).map (fun img => ⟨img.referencedPort, img.index, 1⟩)⟩ ∧
        r.elementList = imageList m pe.elementList) ∧
    ((∃ e ∈ pe.elementList, mapFind m e = none) →
      TransformPortElements m pe =
        .error (.invalidArgument "Could not find element in new model.")) := by
  constructor
  · intro h
    refine ⟨_, TransformPortElements_ok m pe h, rfl, ?_⟩
    rw [elementList_consolidate]
    exact flatMap_singletonRanges _
  · exact TransformPortElements_error m pe

/-- C3 witness: a fully mapped set resolves to its consolidated images, and a
set with an unmapped reference raises the invalid-reference error. -/
theorem C3_witness :
    (∃ r, TransformPortElements [(e00, e00)] (PortElementsBase.fromPort ⟨0, 0⟩ 1) = .ok r ∧
      r = PortElementsBase.consolidate
        ⟨(imageList [(e00, e00)] (PortElementsBase.fromPort ⟨0, 0⟩ 1).elementList).map
          (fun img => ⟨img.referencedPort, img.index, 1⟩)⟩ ∧
      r.elementList = imageList [(e00, e00)] (PortElementsBase.fromPort ⟨0, 0⟩ 1).elementList) ∧
    TransformPortElements [] (PortElementsBase.fromPort ⟨0, 0⟩ 1) =
      .error (.invalidArgument "Could not find element in new model.") :=
  ⟨(C3_transform_port_elements [(e00, e00)] (PortElementsBase.fromPort ⟨0, 0⟩ 1)).1 (by decide),
   (C3_transform_port_elements [] (PortElementsBase.fromPort ⟨0, 0⟩ 1)).2 (by decide)⟩

/-- C7: a default-constructed Transform Context's IsNodeCompilable predicate
returns false for every node, and both CopyModel and RefineModel reset the
transformer's stored context to this default immediately before returning,
so no context supplied to one call is still in effect at the start of the
next call. -/
theorem C7_context_reset :
    (∀ n : Node, TransformContext.default.IsNodeCompilable n = false) ∧
    (∀ (tr : ModelTransformer) (M : Model) (ctx : TransformContext)
        (st' : ModelTransformer) (result : Model),
      CopyModel tr M ctx = (st', .ok result) → st'.context = TransformContext.default) ∧
    (∀ (tr : ModelTransformer) (M : Model) (ctx : TransformContext)
        (st' : ModelTransformer) (result : Model),
      RefineModel tr M ctx = (st', .ok result) → st'.context = TransformContext.default) := by
  refine ⟨fun n => rfl, ?_, ?_⟩
  · intro tr M ctx st' result h
    rw [CopyModel] at h
    rcases hv : copyVisit M.nodes Model.empty [] with ⟨tgt, mm, err⟩
    rw [hv] at h
    cases err with
    | some e => simp at h
    | none =>
      simp only [Prod.mk.injEq] at h
      rw [← h.1]
  · intro tr M ctx st' result h
    rw [RefineModel] at h
    rcases hv : refineLoop ctx maxRefinementIterations M tr.elementToElementMap with
      ⟨fm, fmap, fic, gens, ferr⟩
    rw [hv] at h
    cases ferr with
    | some e => simp at h
    | none =>
      simp only [Prod.mk.injEq] at h
      rw [← h.1]

/-- C7 witness: after concrete CopyModel and RefineModel calls made with a
non-default context, the stored context is back to the default. -/
theorem C7_witness :
    ({ model := ⟨[passiveNode]⟩, elementToElementMap := [(e00, e00)],
       context := TransformContext.default, isModelCompilable := true } :
        ModelTransformer).context = TransformContext.default ∧
    ({ model := ⟨[passiveNode]⟩, elementToElementMap := [(e00, e00)],
       context := TransformContext.default, isModelCompilable := false } :
        ModelTransformer).context = TransformContext.default :=
  ⟨C7_context_reset.2.1 ModelTransformer.fresh passiveModel ctxKind9 _ ⟨[passiveNode]⟩ rfl,
   C7_context_reset.2.2 ModelTransformer.fresh passiveModel ctxKind9 _ ⟨[passiveNode]⟩ rfl⟩

/-- C8: for every invocation of CopyModel or RefineModel, the source Model
argument is unchanged when the call returns and when it aborts with an error
(the caller-visible machine keeps its source component in every outcome),
and all mutation happens on the newly constructed target Model, which is
returned as the sole result (the returned model is exactly the transformer's
built `_model`). -/
theorem C8_source_unmodified (mc : Machine) (ctx : TransformContext) :
    ((mc.copyModel ctx).1.source = mc.source ∧
      (mc.refineModel ctx).1.source = mc.source) ∧
    (∀ (st' : ModelTransformer) (result : Model),
      CopyModel mc.transformer mc.source ctx = (st', .ok result) → result = st'.model) ∧
    (∀ (st' : ModelTransformer) (result : Model),
      RefineModel mc.transformer mc.source ctx = (st', .ok result) → result = st'.model) := by
  refine ⟨⟨?_, ?_⟩, ?_, ?_⟩
  · rw [Machine.copyModel]
  · rw [Machine.refineModel]
  · intro st' result h
    rw [CopyModel] at h
    rcases hv : copyVisit mc.source.nodes Model.empty [] with ⟨tgt, mm, err⟩
    rw [hv] at h
    cases err with
    | some e => simp at h
    | none =>
      simp only [Prod.mk.injEq, Except.ok.injEq] at h
      rw [← h.1, ← h.2]
  · intro st' result h
    rw [RefineModel] at h
    rcases hv : refineLoop ctx maxRefinementIterations mc.source mc.transformer.elementToElementMap
      with ⟨fm, fmap, fic, gens, ferr⟩
    rw [hv] at h
    cases ferr with
    | some e => simp at h
    | none =>
      simp only [Prod.mk.injEq, Except.ok.injEq] at h
      rw [← h.1, ← h.2]

/-- C8 witness: on a concrete machine the source stays intact and the
returned clone is the transformer's built model. -/
theorem C8_witness :
    (((Machine.mk passiveModel ModelTransformer.fresh).copyModel ctxKind9).1.source =
        passiveModel ∧
      ((Machine.mk passiveModel ModelTransformer.fresh).refineModel ctxKind9).1.source =
        passiveModel) ∧
    (⟨[passiveNode]⟩ : Model) =
      ({ model := ⟨[passiveNode]⟩, elementToElementMap := [(e00, e00)],
         context := TransformContext.default, isModelCompilable := true } :
          ModelTransformer).model :=
  ⟨(C8_source_unmodified (Machine.mk passiveModel ModelTransformer.fresh) ctxKind9).1,
   (C8_source_unmodified (Machine.mk passiveModel ModelTransformer.fresh) ctxKind9).2.1 _
     ⟨[passiveNode]⟩ rfl⟩

theorem refineLoopStop_shape_independent (ctx : TransformContext) (cur : Model)
    (m m' : ElementMap) :
    (refineLoopStop ctx cur m).1 = (refineLoopStop ctx cur m').1 ∧
    (refineLoopStop ctx cur m).2.2 = (refineLoopStop ctx cur m').2.2 := by
  simp only [refineLoopStop]
  rcases h : refinePass ctx cur.nodes Model.empty [] false true with ⟨tgt, pm, da, ic, err⟩
  cases err with
  | some e => simp
  | none => cases da <;> simp

theorem refineLoop_shape_independent (ctx : TransformContext) :
    ∀ (remaining : Nat) (cur : Model) (m m' : ElementMap),
      (refineLoop ctx remaining cur m).1 = (refineLoop ctx remaining cur m').1 ∧
      (refineLoop ctx remaining cur m).2.2 = (refineLoop ctx remaining cur m').2.2 := by
  intro remaining
  induction remaining with
  | zero =>
    intro cur m m'
    simp only [refineLoop]
    exact refineLoopStop_shape_independent ctx cur m m'
  | succ n ihn =>
    cases n with
    | zero =>
      intro cur m m'
      simp only [refineLoop]
      exact refineLoopStop_shape_independent ctx cur m m'
    | succ r =>
      intro cur m m'
      simp only [refineLoop]
      rcases h : refinePass ctx cur.nodes Model.empty [] false true with ⟨tgt, pm, da, ic, err⟩
      cases err with
      | some e => simp
      | none =>
        cases da with
        | false => simp
        | true =>
          cases ic with
          | true => simp
          | false =>
            dsimp only
            rcases h1 : refineLoop ctx (r + 1) tgt (composeStep m pm) with ⟨a1, b1, c1, d1, e1⟩
            rcases h2 : refineLoop ctx (r + 1) tgt (composeStep m' pm) with ⟨a2, b2, c2, d2, e2⟩
            have hind := ihn tgt (composeStep m pm) (composeStep m' pm)
            rw [h1, h2] at hind
            simp only [Prod.mk.injEq] at hind
            obtain ⟨hA, hC, hD, hE⟩ := hind
            subst hA
            subst hC
            subst hD
            subst hE
            simp

/-- C1 (amended): the Element Map is cleared at the start of CopyModel before
any node is processed — CopyModel's whole result is independent of the
pre-call map — and each refinement pass runs against a freshly cleared
working map, so the models built and the control flow of RefineModel are
also independent of the pre-call map; but RefineModel does not clear the map
at call entry: the pre-call map is adopted as the previous generation's map
and, when non-empty, composed into the Element Map exposed to the caller, so
a leftover entry from a previous public call does influence the exposed
map. -/
theorem C1_element_map_clearing :
    (∀ (tr : ModelTransformer) (m : ElementMap) (M : Model) (ctx : TransformContext),
      CopyModel { tr with elementToElementMap := m } M ctx = CopyModel tr M ctx) ∧
    (∀ (ctx : TransformContext) (remaining : Nat) (cur : Model) (m m' : ElementMap),
      (refineLoop ctx remaining cur m).1 = (refineLoop ctx remaining cur m').1 ∧
      (refineLoop ctx remaining cur m).2.2 = (refineLoop ctx remaining cur m').2.2) ∧
    (∀ (tr : ModelTransformer) (M : Model) (ctx : TransformContext)
        (tgt : Model) (pm : ElementMap) (ic : Bool),
      tr.elementToElementMap ≠ [] →
      refinePass ctx M.nodes Model.empty [] false true = (tgt, pm, false, ic, none) →
      (RefineModel tr M ctx).1.elementToElementMap = composeMaps tr.elementToElementMap pm) := by
  refine ⟨?_, fun ctx remaining => refineLoop_shape_independent ctx remaining, ?_⟩
  · intro tr m M ctx
    simp only [CopyModel]
  · intro tr M ctx tgt pm ic hne hpass
    have hpos : 0 < tr.elementToElementMap.length := List.length_pos.mpr hne
    have hcs : composeStep tr.elementToElementMap pm = composeMaps tr.elementToElementMap pm := by
      rw [composeStep, if_pos hpos]
    rw [RefineModel]
    have h10 : maxRefinementIterations = 8 + 2 := rfl
    rw [h10, refineLoop, hpass]
    exact hcs

/-- C1 (counterexample): two transformer states differing only in a leftover
Element Map entry expose different maps from the same RefineModel call — the
leftover key, sent to the null element, replaces the pass-built map. -/
theorem C1_counterexample :
    (RefineModel staleTransformer passiveModel TransformContext.default).1.elementToElementMap ≠
      (RefineModel ModelTransformer.fresh passiveModel
        TransformContext.default).1.elementToElementMap ∧
    (RefineModel staleTransformer passiveModel TransformContext.default).1.elementToElementMap =
      [(⟨some ⟨7, 3⟩, 5⟩, PortElementBase.nullElement)] ∧
    (RefineModel ModelTransformer.fresh passiveModel
        TransformContext.default).1.elementToElementMap = [(e00, e00)] :=
  ⟨by decide, by decide, by decide⟩

/-- C1 witness: the amended stale-composition equation at a concrete stale
transformer. -/
theorem C1_witness :
    (RefineModel staleTransformer passiveModel TransformContext.default).1.elementToElementMap =
      composeMaps staleTransformer.elementToElementMap [(e00, e00)] :=
  C1_element_map_clearing.2.2 staleTransformer passiveModel TransformContext.default
    ⟨[passiveNode]⟩ [(e00, e00)] false (by decide) (by decide)

/-- C2 (amended): the loop returns normally whenever a completed pass reports
no node changed, at any point of the iteration budget; otherwise it counts
the iteration whenever any node changed, regardless of compilability, and
when the counter would reach the cap it aborts with the non-convergence
error — whose message names the first node of that pass's source model
rejected by the predicate, or names nothing when every node is accepted —
before the compilability stop is ever consulted; a pass on which some node
refined but the model ended compilable returns normally only below the
cap. -/
theorem C2_loop_control :
    (∀ (ctx : TransformContext) (remaining : Nat) (cur : Model) (curMap : ElementMap)
        (tgt : Model) (pm : ElementMap) (ic : Bool),
      refinePass ctx cur.nodes Model.empty [] false true = (tgt, pm, false, ic, none) →
      refineLoop ctx remaining cur curMap = (tgt, composeStep curMap pm, ic, 1, none)) ∧
    (∀ (ctx : TransformContext) (remaining : Nat) (cur : Model) (curMap : ElementMap)
        (tgt : Model) (pm : ElementMap) (ic : Bool),
      remaining ≤ 1 →
      refinePass ctx cur.nodes Model.empty [] false true = (tgt, pm, true, ic, none) →
      refineLoop ctx remaining cur curMap =
        (tgt, composeStep curMap pm, ic, 1,
          some (TransformError.nonConvergence (firstUncompilableNodeName cur ctx)))) ∧
    (∀ (ctx : TransformContext) (r : Nat) (cur : Model) (curMap : ElementMap)
        (tgt : Model) (pm : ElementMap),
      refinePass ctx cur.nodes Model.empty [] false true = (tgt, pm, true, true, none) →
      refineLoop ctx (r + 2) cur curMap = (tgt, composeStep curMap pm, true, 1, none)) := by
  refine ⟨?_, ?_, ?_⟩
  · intro ctx remaining cur curMap tgt pm ic hpass
    match remaining with
    | 0 =>
      rw [refineLoop, refineLoopStop, hpass]
      rfl
    | 1 =>
      rw [refineLoop, refineLoopStop, hpass]
      rfl
    | r + 2 =>
      rw [refineLoop, hpass]
      rfl
  · intro ctx remaining cur curMap tgt pm ic hrem hpass
    match remaining with
    | 0 =>
      rw [refineLoop, refineLoopStop, hpass]
      rfl
    | 1 =>
      rw [refineLoop, refineLoopStop, hpass]
      rfl
    | r + 2 => omega
  · intro ctx r cur curMap tgt pm hpass
    rw [refineLoop, hpass]
    rfl

/-- C2 (counterexample): a self-rewriting node chain whose tenth pass leaves
the model compilable.  Every pass reports "changed", so the tenth pass
reaches the cap; although that pass ends with `isModelCompilable = true`
(the stored flag after the call), the call aborts with the non-convergence
error rather than returning normally, and — every node of the final pass's
source model being accepted by the predicate — the error names no node at
all. -/
theorem C2_counterexample :
    (RefineModel ModelTransformer.fresh stepModel ctxKind9).2 =
      .error (.nonConvergence "") ∧
    (RefineModel ModelTransformer.fresh stepModel ctxKind9).1.isModelCompilable = true ∧
    refineGenerations ModelTransformer.fresh stepModel ctxKind9 = maxRefinementIterations :=
  ⟨rfl, rfl, rfl⟩

/-- C2 witness: the three amended control-flow facts at concrete inputs — a
no-change pass returning normally at the cap, a changed pass aborting at the
cap, and a changed-but-compilable pass returning normally below the cap. -/
theorem C2_witness :
    refineLoop TransformContext.default 1 passiveModel [] =
      (⟨[passiveNode]⟩, composeStep [] [(e00, e00)], false, 1, none) ∧
    refineLoop TransformContext.default 1 stepModel [] =
      (⟨[⟨0, 1, [], [⟨"double", 1⟩], .stepKind⟩]⟩, composeStep [] [(e00, e00)], false, 1,
        some (TransformError.nonConvergence
          (firstUncompilableNodeName stepModel TransformContext.default))) ∧
    refineLoop ⟨fun _ => true⟩ 2 stepModel [] =
      (⟨[⟨0, 1, [], [⟨"double", 1⟩], .stepKind⟩]⟩, composeStep [] [(e00, e00)], true, 1, none) :=
  ⟨C2_loop_control.1 TransformContext.default 1 passiveModel [] ⟨[passiveNode]⟩ [(e00, e00)]
      false (by decide),
   C2_loop_control.2.1 TransformContext.default 1 stepModel [] _ [(e00, e00)] false
      (by decide) (by decide),
   C2_loop_control.2.2 ⟨fun _ => true⟩ 0 stepModel [] _ [(e00, e00)] (by decide)⟩

/-- C6: for every well-formed source Model with distinct node ids composed
only of nodes whose Refine-into always reports "no change", RefineModel
terminates after exactly one generation (one full topological pass) and
returns a Model isomorphic to the input — same node count, same kind and
output-handle sequences — without raising any error, whatever context and
prior transformer state are supplied. -/
theorem C6_fixed_point_termination (tr : ModelTransformer) (M : Model) (ctx : TransformContext)
    (hwf : M.wf = true) (hids : M.idsNodup = true)
    (hpassive : ∀ n ∈ M.nodes, n.behavior = NodeBehavior.passive) :
    ∃ st' result, RefineModel tr M ctx = (st', .ok result) ∧
      refineGenerations tr M ctx = 1 ∧
      result.nodes.length = M.nodes.length ∧
      result.nodes.map (fun x => x.kind) = M.nodes.map (fun x => x.kind) ∧
      result.nodes.map (fun x => x.outputs) = M.nodes.map (fun x => x.outputs) := by
  obtain ⟨tgt, pm, hpass, hinv⟩ := refinePass_model ctx M hwf ((nodupBool_iff _).mp hids)
  have hda : M.nodes.any nodeChanged = false := by
    rw [List.any_eq_false]
    intro n hn
    simp [nodeChanged, hpassive n hn]
  rw [hda] at hpass
  have hloop : refineLoop ctx maxRefinementIterations M tr.elementToElementMap =
      (tgt, composeStep tr.elementToElementMap pm, M.nodes.all ctx.IsNodeCompilable, 1, none) := by
    have h10 : maxRefinementIterations = 8 + 2 := rfl
    rw [h10, refineLoop, hpass]
    rfl
  refine ⟨{ tr with
      model := tgt
      elementToElementMap := composeStep tr.elementToElementMap pm
      context := TransformContext.default
      isModelCompilable := M.nodes.all ctx.IsNodeCompilable }, tgt, ?_, ?_, hinv.1, ?_, ?_⟩
  · rw [RefineModel, hloop]
  · rw [refineGenerations, hloop]
  · rw [kinds_eq_of_passInv hinv]
    apply List.map_congr_left
    intro n hn
    simp [stepNode, hpassive n hn]
  · exact outputs_eq_of_passInv preservesShape_stepNode hinv

/-- C6 witness: a two-node all-passive chain refines in exactly one
generation, error-free, even on a transformer with leftover state. -/
theorem C6_witness :
    ∃ st' result, RefineModel staleTransformer chainModel ctxKind9 = (st', .ok result) ∧
      refineGenerations staleTransformer chainModel ctxKind9 = 1 ∧
      result.nodes.length = chainModel.nodes.length ∧
      result.nodes.map (fun x => x.kind) = chainModel.nodes.map (fun x => x.kind) ∧
      result.nodes.map (fun x => x.outputs) = chainModel.nodes.map (fun x => x.outputs) :=
  C6_fixed_point_termination staleTransformer chainModel ctxKind9 (by decide) (by decide)
    (by decide)

/-- C5: for every well-formed source Model with distinct node ids and every
context, CopyModel returns a fresh Model with the same node count, the same
per-node kind sequence and the same output-handle sequence in topological
order, and every output port of the source resolves through
GetCorrespondingOutputs to the full element range of the port of identical
type and position in the clone. -/
theorem C5_clone_isomorphism (tr : ModelTransformer) (M : Model) (ctx : TransformContext)
    (hwf : M.wf = true) (hids : M.idsNodup = true) :
    ∃ st' clone, CopyModel tr M ctx = (st', .ok clone) ∧
      clone.nodes.length = M.nodes.length ∧
      clone.nodes.map (fun x => x.kind) = M.nodes.map (fun x => x.kind) ∧
      clone.nodes.map (fun x => x.outputs) = M.nodes.map (fun x => x.outputs) ∧
      (∀ t, t < M.nodes.length → ∀ p, p < (nodeAt M t).outputs.length →
        (nodeAt clone t).outputs = (nodeAt M t).outputs ∧
        ∃ r, GetCorrespondingOutputs st'
              (PortElementsBase.fromPort ⟨(nodeAt M t).id, p⟩
                (((nodeAt M t).outputs.get? p).getD ⟨"", 0⟩).size) = .ok r ∧
          r.elementList =
            (PortElementsBase.fromPort ⟨t, p⟩
              (((nodeAt M t).outputs.get? p).getD ⟨"", 0⟩).size).elementList) := by
  obtain ⟨tgt, m', hvisit, hinv0⟩ := copyVisit_ok M.nodes [] Model.empty []
    (PassInv_empty emCopy) hwf (by simpa using (nodupBool_iff _).mp hids)
  have hinv : PassInv emCopy M.nodes tgt m' := by simpa using hinv0
  refine ⟨{ tr with
      model := tgt
      elementToElementMap := m'
      context := TransformContext.default }, tgt, ?_, hinv.1, ?_, ?_, ?_⟩
  · rw [CopyModel, hvisit]
  · have h := kinds_eq_of_passInv hinv
    rw [h]
    apply List.map_congr_left
    intro n hn
    rfl
  · exact outputs_eq_of_passInv preservesShape_emCopy hinv
  · intro t ht p hp
    obtain ⟨hlen, hwfT, hshape, hmap⟩ := hinv
    constructor
    · obtain ⟨ins, hins⟩ := hshape t ht
      rw [nodeAt, hins, Option.getD_some]
      rfl
    · set src := nodeAt M t with hsrc
      set s := ((src.outputs.get? p).getD ⟨"", 0⟩).size with hs
      have hsome : ∀ e ∈ (PortElementsBase.fromPort ⟨src.id, p⟩ s).elementList,
          (mapFind m' e).isSome := by
        intro e he
        simp only [PortElementsBase.fromPort, PortElementsBase.elementList,
          PortRange.elementList, List.flatMap_cons, List.flatMap_nil, List.append_nil,
          List.mem_map, List.mem_range] at he
        obtain ⟨j, hj, hje⟩ := he
        subst hje
        have howns : ownsElement src.id src.outputs ⟨some ⟨src.id, p⟩, 0 + j⟩ = true := by
          rw [ownsElement_some_iff]
          exact ⟨rfl, hp, by rw [Nat.zero_add]; exact hj⟩
        rw [hmap t ht _ howns]
        rfl
      obtain ⟨r, hok, hlist⟩ := TransformPortElements_elementList m' _ hsome
      refine ⟨r, hok, ?_⟩
      rw [hlist]
      simp only [imageList, PortElementsBase.fromPort, PortElementsBase.elementList,
        PortRange.elementList, List.flatMap_cons, List.flatMap_nil, List.append_nil,
        List.map_map]
      apply List.map_congr_left
      intro j hj
      rw [List.mem_range] at hj
      have howns : ownsElement src.id src.outputs ⟨some ⟨src.id, p⟩, 0 + j⟩ = true := by
        rw [ownsElement_some_iff]
        exact ⟨rfl, hp, by rw [Nat.zero_add]; exact hj⟩
      simp only [Function.comp_apply]
      rw [hmap t ht _ howns]
      rfl

/-- C10: after CopyModel returns, the transformer retains (does not clear)
the old-to-new Element Map built during the copy: every output element of
the source Model still resolves, through GetCorrespondingOutputs invoked on
the state returned by the completed call, to its image in the clone. -/
theorem C10_map_retained_after_copy (tr : ModelTransformer) (M : Model) (ctx : TransformContext)
    (hwf : M.wf = true) (hids : M.idsNodup = true) :
    ∃ st' clone, CopyModel tr M ctx = (st', .ok clone) ∧
      ∀ e, M.hasElement e = true →
        ∃ img, mapFind st'.elementToElementMap e = some img ∧ clone.hasElement img = true ∧
          GetCorrespondingOutputs st' ⟨[⟨e.referencedPort, e.index, 1⟩]⟩ =
            .ok ⟨[⟨img.referencedPort, img.index, 1⟩]⟩ := by
  obtain ⟨tgt, m', hvisit, hinv0⟩ := copyVisit_ok M.nodes [] Model.empty []
    (PassInv_empty emCopy) hwf (by simpa using (nodupBool_iff _).mp hids)
  have hinv : PassInv emCopy M.nodes tgt m' := by simpa using hinv0
  refine ⟨{ tr with
      model := tgt
      elementToElementMap := m'
      context := TransformContext.default }, tgt, ?_, ?_⟩
  · rw [CopyModel, hvisit]
  · intro e he
    obtain ⟨img, hfind, hclone⟩ := passmap_resolves preservesShape_emCopy hinv e he
    refine ⟨img, hfind, hclone, ?_⟩
    obtain ⟨eport, eidx⟩ := e
    rw [GetCorrespondingOutputs]
    show TransformPortElements m' _ = _
    have hel : (⟨[⟨eport, eidx, 1⟩]⟩ : PortElementsBase).elementList =
        [⟨eport, eidx⟩] := by
      simp [PortElementsBase.elementList, PortRange.elementList, List.range_succ]
    rw [TransformPortElements, hel, transformElementList, hfind]
    rfl

/-- C5 witness: the clone isomorphism at a concrete two-node chain. -/
theorem C5_witness :
    ∃ st' clone, CopyModel staleTransformer chainModel ctxKind9 = (st', .ok clone) ∧
      clone.nodes.length = chainModel.nodes.length ∧
      clone.nodes.map (fun x => x.kind) = chainModel.nodes.map (fun x => x.kind) ∧
      clone.nodes.map (fun x => x.outputs) = chainModel.nodes.map (fun x => x.outputs) ∧
      (∀ t, t < chainModel.nodes.length → ∀ p, p < (nodeAt chainModel t).outputs.length →
        (nodeAt clone t).outputs = (nodeAt chainModel t).outputs ∧
        ∃ r, GetCorrespondingOutputs st'
              (PortElementsBase.fromPort ⟨(nodeAt chainModel t).id, p⟩
                (((nodeAt chainModel t).outputs.get? p).getD ⟨"", 0⟩).size) = .ok r ∧
          r.elementList =
            (PortElementsBase.fromPort ⟨t, p⟩
              (((nodeAt chainModel t).outputs.get? p).getD ⟨"", 0⟩).size).elementList) :=
  C5_clone_isomorphism staleTransformer chainModel ctxKind9 (by decide) (by decide)

/-- C10 witness: post-call resolution of every source element at a concrete
two-node chain. -/
theorem C10_witness :
    ∃ st' clone, CopyModel staleTransformer chainModel ctxKind9 = (st', .ok clone) ∧
      ∀ e, chainModel.hasElement e = true →
        ∃ img, mapFind st'.elementToElementMap e = some img ∧ clone.hasElement img = true ∧
          GetCorrespondingOutputs st' ⟨[⟨e.referencedPort, e.index, 1⟩]⟩ =
            .ok ⟨[⟨img.referencedPort, img.index, 1⟩]⟩ :=
  C10_map_retained_after_copy staleTransformer chainModel ctxKind9 (by decide) (by decide)

/-- C4: after each refinement pass beyond the first, the Element Map exposed
to the caller is the composition of the previous generation's map with the
map produced by the pass just completed — for every entry `(old, mid)` of
the previous map, the new map contains `(old, image of mid under the pass
map)` — and for every refinement run started on a fresh transformer over a
well-formed source Model with distinct node ids, every Element Reference of
the original source Model resolves via the caller-visible map to an element
of the final Model, even across several generations. -/
theorem C4_cross_generation_composition (tr : ModelTransformer) (M : Model)
    (ctx : TransformContext) (st' : ModelTransformer) (result : Model)
    (hfresh : tr.elementToElementMap = [])
    (hwf : M.wf = true) (hids : M.idsNodup = true)
    (hok : RefineModel tr M ctx = (st', .ok result)) :
    (∀ (curMap pm : ElementMap) (old mid : PortElementBase),
      curMap ≠ [] → mapFind curMap old = some mid →
      mapFind (composeStep curMap pm) old =
        some ((mapFind pm mid).getD PortElementBase.nullElement)) ∧
    (∀ e, M.hasElement e = true →
      ∃ e', mapFind st'.elementToElementMap e = some e' ∧ result.hasElement e' = true) := by
  constructor
  · intro curMap pm old mid hne hfound
    rw [composeStep, if_pos (List.length_pos.mpr hne), mapFind_composeMaps, hfound]
    rfl
  · rw [RefineModel, hfresh] at hok
    rcases hrun : refineLoop ctx maxRefinementIterations M [] with ⟨fm, fmap, fic, gens, ferr⟩
    rw [hrun] at hok
    cases ferr with
    | some e => simp at hok
    | none =>
      simp only [Prod.mk.injEq, Except.ok.injEq] at hok
      obtain ⟨hst, hres⟩ := hok
      intro e he
      obtain ⟨e', h1, h2⟩ := refineLoop_resolves ctx M maxRefinementIterations M [] hwf
        ((nodupBool_iff _).mp hids) (Or.inl ⟨rfl, rfl⟩) fm fmap fic gens hrun e he
      refine ⟨e', ?_, ?_⟩
      · rw [← hst]
        exact h1
      · rw [← hres]
        exact h2

/-- A context accepting exactly kind 1, driving a two-generation run. -/
def ctxKind1 : TransformContext := ⟨fun n => n.kind == 1⟩

/-- C4 witness: a two-generation refinement of the self-rewriting node; the
composition facts are discharged at that concrete run. -/
theorem C4_witness :
    (∀ (curMap pm : ElementMap) (old mid : PortElementBase),
      curMap ≠ [] → mapFind curMap old = some mid →
      mapFind (composeStep curMap pm) old =
        some ((mapFind pm mid).getD PortElementBase.nullElement)) ∧
    (∀ e, stepModel.hasElement e = true →
      ∃ e', mapFind ({ model := ⟨[⟨0, 2, [], [⟨"double", 1⟩], .stepKind⟩]⟩,
                       elementToElementMap := [(e00, e00)],
                       context := TransformContext.default,
                       isModelCompilable := true } : ModelTransformer).elementToElementMap e =
          some e' ∧
        (⟨[⟨0, 2, [], [⟨"double", 1⟩], .stepKind⟩]⟩ : Model).hasElement e' = true) :=
  C4_cross_generation_composition ModelTransformer.fresh stepModel ctxKind1 _
    ⟨[⟨0, 2, [], [⟨"double", 1⟩], .stepKind⟩]⟩ rfl (by decide) (by decide) rfl
